import Mathlib

/-!
Verification development for the pony-maze navigator (`trustpilot.py`).

The core of the program is embedded shallowly:

* `Coord` — the `(row, column)` tuples used as graph vertices (Python ints,
  so `Int × Int`: the decoder can produce `-1` components).
* `Dict` — the `defaultdict(set)` adjacency mapping `self.maze`, modelled as
  an association list in key-insertion order; each value models a Python set
  of coordinates, listed in iteration order (the model fixes that order to
  insertion order, which the CPython `set` leaves unspecified).
* `decodeCell` / `buildMaze` — the grid-decoding loop of `Maze.__init__`.
* `processNeighbors` / `bfsAux` / `bfs` — the `bfs` function; the Lean
  embedding is fuelled, and `fuelBound` is proved sufficient below, which is
  exactly the termination argument for the Python loop.
* `bfsStateAux` — the same search but threading the `defaultdict` state, to
  reason about the mutation performed by `Maze.__getitem__` on missing keys.
* `backup`, `get_move` — the escape heuristic and the move planner; partial
  operations (`[-1]` on an empty list, `move_map[delta]` key errors) are
  modelled with `Option`, `none` standing for the raised exception.
-/

abbrev Coord : Type := Int × Int

abbrev Dict : Type := List (Coord × List Coord)

/-- Key lookup in the adjacency dictionary (first matching key). -/
def lookupD : Dict → Coord → Option (List Coord)
  | [], _ => none
  | p :: ps, c => if p.1 = c then some p.2 else lookupD ps c

/-- Reading `maze[c]` without the defaultdict side effect: the recorded
neighbour set, or the default empty set. -/
def getAdj (d : Dict) (c : Coord) : List Coord :=
  (lookupD d c).getD []

/-- Python `set.add`: no-op when present, otherwise the element joins the
iteration order at the end (the model's fixed order). -/
def setAdd (s : List Coord) (x : Coord) : List Coord :=
  if x ∈ s then s else s ++ [x]

/-- `self.maze[c].add(x)` on the defaultdict: update the existing entry in
place, or append a fresh key holding `{x}`. -/
def dictAdd : Dict → Coord → Coord → Dict
  | [], c, x => [(c, [x])]
  | p :: ps, c, x => if p.1 = c then (c, setAdd p.2 x) :: ps else p :: dictAdd ps c x

/-- `Maze.__getitem__` faithfully: reading a missing key inserts it with an
empty set (defaultdict behaviour), so the lookup returns the value and the
possibly-extended dictionary. -/
def dictGet (d : Dict) (c : Coord) : List Coord × Dict :=
  match lookupD d c with
  | some v => (v, d)
  | none => ([], d ++ [(c, [])])

/-- `Maze._coord_from_index`: `row = index // width`, `column = index % width`. -/
def coord_from_index (width idx : Nat) : Coord :=
  ((idx / width : Nat), (idx % width : Nat))

/-- One iteration of the decoding loop in `Maze.__init__`: for the cell at
flat index `idx`, a missing `"west"` wall links the cell with its western
neighbour (both directions, in source order), and a missing `"north"` wall
links it with its northern neighbour. No bounds checking is performed. -/
def decodeCell (width : Nat) (m : Dict) (idx : Nat) (walls : List String) : Dict :=
  let row : Int := (idx / width : Nat)
  let column : Int := (idx % width : Nat)
  let m1 : Dict :=
    if "west" ∈ walls then m
    else dictAdd (dictAdd m (row, column) (row, column - 1)) (row, column - 1) (row, column)
  if "north" ∈ walls then m1
  else dictAdd (dictAdd m1 (row, column) (row - 1, column)) (row - 1, column) (row, column)

/-- The decoding loop, carrying the running flat index of `enumerate`. -/
def decodeFrom (width : Nat) : Nat → List (List String) → Dict → Dict
  | _, [], m => m
  | i, walls :: rest, m => decodeFrom width (i + 1) rest (decodeCell width m i walls)

/-- The whole grid-decoding part of `Maze.__init__`: fold `decodeCell` over
`enumerate(grid)` starting from the empty defaultdict. Note that neither the
length of `grid` nor the decoded coordinates are validated, and `height` is
not consulted at all. -/
def buildMaze (width : Nat) (grid : List (List String)) : Dict :=
  decodeFrom width 0 grid []

/-- The maze state the planning functions read: the adjacency dictionary and
the three occupant positions. -/
structure Maze where
  width : Nat
  maze : Dict
  pony : Coord
  domokun : Coord
  goal : Coord
deriving DecidableEq

/-- The body of the `for neighbor in maze[pos]` loop of `bfs`, iterating over
the neighbour set in order: the first neighbour equal to the goal returns the
finished path; neighbours already on the path or equal to Domokun are
skipped; the rest are appended to the queue (the accumulator). -/
def processNeighbors (dom goal : Coord) (path : List Coord) :
    List Coord → List (Coord × List Coord) → Sum (List Coord) (List (Coord × List Coord))
  | [], acc => Sum.inr acc
  | x :: ns, acc =>
    if x = goal then Sum.inl (path ++ [x])
    else if x ∈ path ∨ x = dom then processNeighbors dom goal path ns acc
    else processNeighbors dom goal path ns (acc ++ [(x, path ++ [x])])

/-- The `while queue:` loop of `bfs`. `queue.pop()` removes the LAST entry
(Python list `pop` with no index), which is what the recursion models with
`getLast?`/`dropLast`. The `Nat` argument is fuel: `none` means the fuel ran
out, and `fuelBound` below is proved sufficient. -/
def bfsAux (adj : Coord → List Coord) (dom goal : Coord) :
    Nat → List (Coord × List Coord) → Option (List Coord)
  | 0, _ => none
  | fuel + 1, q =>
    match q.getLast? with
    | none => some []
    | some (pos, path) =>
      match processNeighbors dom goal path (adj pos) q.dropLast with
      | .inl r => some r
      | .inr q2 => bfsAux adj dom goal fuel q2

/-- Every coordinate the search can ever touch: the pony plus every key and
every recorded neighbour of the dictionary. -/
def vertsOf (m : Maze) : List Coord :=
  m.pony :: (m.maze.map (fun p => p.1 :: p.2)).flatten

/-- An upper bound on the size of any neighbour set. -/
def maxDeg (m : Maze) : Nat :=
  (m.maze.map (fun p => p.2.length)).foldr max 0

/-- Fuel that the termination proof shows is enough for `bfsAux`. -/
def fuelBound (m : Maze) : Nat :=
  (maxDeg m + 1) ^ (vertsOf m).dedup.length + 1

/-- `bfs(maze)` with its result still wrapped in `Option` (fuel accounting). -/
def bfsRun (m : Maze) : Option (List Coord) :=
  bfsAux (getAdj m.maze) m.domokun m.goal (fuelBound m) [(m.pony, [m.pony])]

/-- `bfs(maze)`: the path found, or `[]` when the queue empties. -/
def bfs (m : Maze) : List Coord :=
  (bfsRun m).getD []

/-- The sort key of `backup`: `abs(m[0] - d[1]) + abs(m[1] - d[1])` — the
source compares both components against Domokun's COLUMN (`d[1]` twice);
this is the "Manhattan-distance proxy" of the specification. -/
def proxyKey (d mv : Coord) : Nat :=
  (mv.1 - d.2).natAbs + (mv.2 - d.2).natAbs

/-- `backup(maze)`: `sorted(maze[pony], key=proxy)[-1]`. Python's `sorted` is
a stable sort by key, modelled by `List.insertionSort` with the non-strict
key comparison; `[-1]` on the empty list raises `IndexError`, modelled by
`getLast?` returning `none`. -/
def backup (m : Maze) : Option Coord :=
  (List.insertionSort (fun a b => proxyKey m.domokun a ≤ proxyKey m.domokun b)
    (getAdj m.maze m.pony)).getLast?

/-- `path[1] if path else backup(maze)`: the cell the move planner steers to.
`(bfs m)[1]?` would be `none` only for a one-element path (IndexError). -/
def targetCell (m : Maze) : Option Coord :=
  if bfs m = [] then backup m else (bfs m)[1]?

inductive Direction : Type
  | north
  | south
  | east
  | west
deriving DecidableEq

/-- The fixed delta table of `get_move`; a delta outside the table is a
`KeyError`, modelled by `none`. -/
def move_map (delta : Coord) : Option Direction :=
  if delta = (0, -1) then some .west
  else if delta = (1, 0) then some .south
  else if delta = (0, 1) then some .east
  else if delta = (-1, 0) then some .north
  else none

/-- The delta a direction stands for, for stating the landing property. -/
def dirDelta : Direction → Coord
  | .west => (0, -1)
  | .south => (1, 0)
  | .east => (0, 1)
  | .north => (-1, 0)

/-- `get_move(maze)`: pick the target cell, form the delta against the
pony's position, and translate it through `move_map`. -/
def get_move (m : Maze) : Option Direction :=
  match targetCell m with
  | none => none
  | some mv => move_map (mv.1 - m.pony.1, mv.2 - m.pony.2)

/-- Consecutive elements of the list are linked in the maze graph. -/
def chainB (m : Maze) : List Coord → Bool
  | [] => true
  | [_] => true
  | a :: b :: rest => (b ∈ getAdj m.maze a) && chainB m (b :: rest)

/-- The list is a pony-to-goal walk through the graph avoiding Domokun. -/
def isPathB (m : Maze) (l : List Coord) : Bool :=
  (l.head? = some m.pony) && (l.getLast? = some m.goal) &&
    l.all (fun x => x ≠ m.domokun) && chainB m l

/-- Every recorded edge of the maze moves one step in one axis. -/
def unitEdges (m : Maze) : Prop :=
  ∀ p ∈ m.maze, ∀ b ∈ p.2,
    (b.1 - p.1.1, b.2 - p.1.2) ∈ [((0 : Int), (-1 : Int)), (1, 0), (0, 1), (-1, 0)]

instance (m : Maze) : Decidable (unitEdges m) := by
  unfold unitEdges; infer_instance

/-- The `bfs` loop again, but threading the `defaultdict` itself so that the
side effect of `maze[pos]` (key insertion on a miss, in `Maze.__getitem__`)
is visible in the result. -/
def bfsStateAux (dom goal : Coord) :
    Nat → List (Coord × List Coord) → Dict → Option (List Coord) × Dict
  | 0, _, d => (none, d)
  | fuel + 1, q, d =>
    match q.getLast? with
    | none => (some [], d)
    | some (pos, path) =>
      let pr := dictGet d pos
      match processNeighbors dom goal path pr.1 q.dropLast with
      | .inl r => (some r, pr.2)
      | .inr q2 => bfsStateAux dom goal fuel q2 pr.2

/-- `bfs(maze)` with the defaultdict state it leaves behind. -/
def bfsStateRun (m : Maze) : Option (List Coord) × Dict :=
  bfsStateAux m.domokun m.goal (fuelBound m) [(m.pony, [m.pony])] m.maze

/-- `backup(maze)` threading the defaultdict: `maze[maze.pony]` is the one
dictionary read it performs. -/
def backupState (pony dom : Coord) (d : Dict) : Option Coord × Dict :=
  let pr := dictGet d pony
  ((List.insertionSort (fun a b => proxyKey dom a ≤ proxyKey dom b) pr.1).getLast?, pr.2)

/-! ### Dictionary lemmas -/

lemma mem_setAdd {s : List Coord} {x a : Coord} : a ∈ setAdd s x ↔ a = x ∨ a ∈ s := by
  unfold setAdd
  split_ifs with h
  · constructor
    · exact fun h2 => Or.inr h2
    · rintro (rfl | h2)
      · exact h
      · exact h2
  · simp [or_comm]

lemma getAdj_nil (b : Coord) : getAdj [] b = [] := rfl

lemma getAdj_cons {p : Coord × List Coord} {ps : Dict} {b : Coord} :
    getAdj (p :: ps) b = if p.1 = b then p.2 else getAdj ps b := by
  simp only [getAdj, lookupD]
  split_ifs <;> rfl

lemma mem_getAdj_dictAdd {d : Dict} {c x a b : Coord} :
    a ∈ getAdj (dictAdd d c x) b ↔ (b = c ∧ a = x) ∨ a ∈ getAdj d b := by
  induction d with
  | nil =>
    by_cases hbc : c = b
    · subst hbc
      simp [dictAdd, getAdj_cons, getAdj_nil]
    · have hbc2 : ¬(b = c) := fun h2 => hbc h2.symm
      simp [dictAdd, getAdj_cons, getAdj_nil, if_neg hbc, hbc2]
  | cons p ps ih =>
    by_cases hp : p.1 = c
    · rw [dictAdd, if_pos hp]
      by_cases hbc : c = b
      · subst hbc
        have h1 : getAdj ((c, setAdd p.2 x) :: ps) c = setAdd p.2 x := by
          rw [getAdj_cons]; simp
        have h2 : getAdj (p :: ps) c = p.2 := by
          rw [getAdj_cons]; simp [hp]
        rw [h1, h2, mem_setAdd]
        simp
      · have hbc2 : ¬(b = c) := fun h2 => hbc h2.symm
        have hpb : ¬(p.1 = b) := by rw [hp]; exact hbc
        have h1 : getAdj ((c, setAdd p.2 x) :: ps) b = getAdj ps b := by
          rw [getAdj_cons]; simp [hbc]
        have h2 : getAdj (p :: ps) b = getAdj ps b := by
          rw [getAdj_cons]; simp [hpb]
        rw [h1, h2]
        simp [hbc2]
    · rw [dictAdd, if_neg hp]
      by_cases hpb : p.1 = b
      · have hbc2 : ¬(b = c) := by rintro rfl; exact hp hpb
        rw [getAdj_cons, getAdj_cons, if_pos hpb, if_pos hpb]
        simp [hbc2]
      · rw [getAdj_cons, getAdj_cons, if_neg hpb, if_neg hpb]
        exact ih

lemma getAdj_dictGet_fst (d : Dict) (c : Coord) : (dictGet d c).1 = getAdj d c := by
  unfold dictGet getAdj
  cases lookupD d c <;> rfl

lemma lookupD_append (d1 d2 : Dict) (c : Coord) :
    lookupD (d1 ++ d2) c = ((lookupD d1 c).or (lookupD d2 c)) := by
  induction d1 with
  | nil => simp [lookupD]
  | cons p ps ih =>
    simp only [List.cons_append, lookupD]
    split_ifs with h
    · rfl
    · exact ih

lemma getAdj_dictGet_snd (d : Dict) (c c2 : Coord) :
    getAdj (dictGet d c).2 c2 = getAdj d c2 := by
  unfold dictGet
  cases h : lookupD d c with
  | some v => rfl
  | none =>
    simp only [getAdj, lookupD_append]
    cases h2 : lookupD d c2 with
    | some v => rfl
    | none =>
      simp only [Option.none_or]
      simp only [lookupD]
      split_ifs with h3
      · subst h3; rfl
      · rfl

lemma lookupD_dictGet (d : Dict) (p c : Coord) :
    lookupD (dictGet d p).2 c = lookupD d c ∨
      (lookupD d c = none ∧ lookupD (dictGet d p).2 c = some []) := by
  unfold dictGet
  cases h : lookupD d p with
  | some v => exact Or.inl rfl
  | none =>
    simp only [lookupD_append]
    cases h2 : lookupD d c with
    | some v => exact Or.inl rfl
    | none =>
      simp only [Option.none_or, lookupD]
      split_ifs with h3
      · simp
      · simp

lemma lookupD_mem {d : Dict} {c : Coord} {v : List Coord} (h : lookupD d c = some v) :
    (c, v) ∈ d := by
  induction d with
  | nil => simp [lookupD] at h
  | cons p ps ih =>
    simp only [lookupD] at h
    split_ifs at h with h2
    · obtain rfl := h2
      obtain rfl : p.2 = v := Option.some.inj h
      exact List.mem_cons_self _ _
    · exact List.mem_cons_of_mem _ (ih h)

lemma mem_getAdj_exists {d : Dict} {a b : Coord} (h : b ∈ getAdj d a) :
    ∃ p ∈ d, p.1 = a ∧ b ∈ p.2 := by
  unfold getAdj at h
  cases h2 : lookupD d a with
  | none => rw [h2] at h; simp at h
  | some v =>
    rw [h2] at h
    exact ⟨(a, v), lookupD_mem h2, rfl, h⟩

/-! ### Decoder lemmas: symmetry, monotonicity, incrementality -/

def SymD (d : Dict) : Prop := ∀ a b : Coord, a ∈ getAdj d b ↔ b ∈ getAdj d a

lemma symD_addPair {d : Dict} (h : SymD d) (x y : Coord) :
    SymD (dictAdd (dictAdd d x y) y x) := by
  intro a b
  simp only [mem_getAdj_dictAdd]
  rw [h a b]
  tauto

lemma symD_decodeCell {w : Nat} {d : Dict} {i : Nat} {walls : List String} (h : SymD d) :
    SymD (decodeCell w d i walls) := by
  unfold decodeCell
  dsimp only
  split_ifs with hN hW hW
  · exact h
  · exact symD_addPair h _ _
  · exact symD_addPair h _ _
  · exact symD_addPair (symD_addPair h _ _) _ _

lemma symD_decodeFrom {w : Nat} :
    ∀ (grid : List (List String)) (j : Nat) (d : Dict), SymD d →
      SymD (decodeFrom w j grid d) := by
  intro grid
  induction grid with
  | nil => intro j d h; exact h
  | cons walls rest ih => intro j d h; exact ih _ _ (symD_decodeCell h)

lemma getAdj_mono_dictAdd {d : Dict} {c x a b : Coord} (h : a ∈ getAdj d b) :
    a ∈ getAdj (dictAdd d c x) b := by
  rw [mem_getAdj_dictAdd]; exact Or.inr h

lemma getAdj_mono_decodeCell {w : Nat} {d : Dict} {i : Nat} {walls : List String}
    {a b : Coord} (h : a ∈ getAdj d b) : a ∈ getAdj (decodeCell w d i walls) b := by
  unfold decodeCell
  dsimp only
  split_ifs <;> repeat (first | exact h | apply getAdj_mono_dictAdd)

lemma getAdj_mono_decodeFrom {w : Nat} :
    ∀ (grid : List (List String)) (j : Nat) (d : Dict) {a b : Coord},
      a ∈ getAdj d b → a ∈ getAdj (decodeFrom w j grid d) b := by
  intro grid
  induction grid with
  | nil => intro j d a b h; exact h
  | cons walls rest ih => intro j d a b h; exact ih _ _ (getAdj_mono_decodeCell h)

lemma decodeCell_west {w : Nat} {d : Dict} {i : Nat} {walls : List String}
    (hW : "west" ∉ walls) :
    (((i / w : Nat) : Int), ((i % w : Nat) : Int) - 1) ∈
      getAdj (decodeCell w d i walls) (((i / w : Nat) : Int), ((i % w : Nat) : Int)) := by
  unfold decodeCell
  dsimp only
  rw [if_neg hW]
  have hmem : (((i / w : Nat) : Int), ((i % w : Nat) : Int) - 1) ∈
      getAdj (dictAdd (dictAdd d (((i / w : Nat) : Int), ((i % w : Nat) : Int))
          (((i / w : Nat) : Int), ((i % w : Nat) : Int) - 1))
        (((i / w : Nat) : Int), ((i % w : Nat) : Int) - 1)
        (((i / w : Nat) : Int), ((i % w : Nat) : Int)))
      (((i / w : Nat) : Int), ((i % w : Nat) : Int)) := by
    simp [mem_getAdj_dictAdd]
  split_ifs with hN
  · exact hmem
  · exact getAdj_mono_dictAdd (getAdj_mono_dictAdd hmem)

lemma decodeFrom_get_west {w : Nat} :
    ∀ (grid : List (List String)) (j : Nat) (d : Dict) (i : Nat) (walls : List String),
      grid[i]? = some walls → "west" ∉ walls →
      ((((j + i) / w : Nat) : Int), (((j + i) % w : Nat) : Int) - 1) ∈
        getAdj (decodeFrom w j grid d) ((((j + i) / w : Nat) : Int), (((j + i) % w : Nat) : Int)) := by
  intro grid
  induction grid with
  | nil => intro j d i walls h; simp at h
  | cons wls rest ih =>
    intro j d i walls h hW
    cases i with
    | zero =>
      obtain rfl : wls = walls := by simpa using h
      simp only [Nat.add_zero]
      rw [decodeFrom]
      exact getAdj_mono_decodeFrom rest (j + 1) _ (decodeCell_west hW)
    | succ i2 =>
      have h2 : rest[i2]? = some walls := by simpa using h
      have := ih (j + 1) (decodeCell w d j wls) i2 walls h2 hW
      have harith : j + 1 + i2 = j + (i2 + 1) := by omega
      rw [harith] at this
      exact this

lemma decodeFrom_append {w : Nat} :
    ∀ (g : List (List String)) (j : Nat) (d : Dict) (dd : List String),
      decodeFrom w j (g ++ [dd]) d = decodeCell w (decodeFrom w j g d) (j + g.length) dd := by
  intro g
  induction g with
  | nil => intro j d dd; simp [decodeFrom]
  | cons walls rest ih =>
    intro j d dd
    have h1 : (walls :: rest) ++ [dd] = walls :: (rest ++ [dd]) := rfl
    rw [h1, decodeFrom, ih, decodeFrom]
    simp only [List.length_cons]
    rw [show j + 1 + rest.length = j + (rest.length + 1) from by omega]

/-! ### The neighbour loop of `bfs` -/

lemma processNeighbors_inl {dom goal : Coord} {path : List Coord} :
    ∀ {ns : List Coord} {acc : List (Coord × List Coord)} {r : List Coord},
      processNeighbors dom goal path ns acc = Sum.inl r → r = path ++ [goal] ∧ goal ∈ ns := by
  intro ns
  induction ns with
  | nil =>
    intro acc r h
    simp [processNeighbors] at h
  | cons x ns2 ih =>
    intro acc r h
    rw [processNeighbors] at h
    by_cases h1 : x = goal
    · rw [if_pos h1] at h
      obtain rfl := h1
      obtain rfl : path ++ [x] = r := Sum.inl.inj h
      exact ⟨rfl, List.mem_cons_self _ _⟩
    · rw [if_neg h1] at h
      by_cases h2 : x ∈ path ∨ x = dom
      · rw [if_pos h2] at h
        obtain ⟨hr, hm⟩ := ih h
        exact ⟨hr, List.mem_cons_of_mem _ hm⟩
      · rw [if_neg h2] at h
        obtain ⟨hr, hm⟩ := ih h
        exact ⟨hr, List.mem_cons_of_mem _ hm⟩

lemma processNeighbors_inr {dom goal : Coord} {path : List Coord} :
    ∀ {ns : List Coord} {acc q2 : List (Coord × List Coord)},
      processNeighbors dom goal path ns acc = Sum.inr q2 →
      ∃ ch, q2 = acc ++ ch ∧ ch.length ≤ ns.length ∧
        ∀ e ∈ ch, ∃ x, e = (x, path ++ [x]) ∧ x ∈ ns ∧ x ∉ path ∧ x ≠ dom ∧ x ≠ goal := by
  intro ns
  induction ns with
  | nil =>
    intro acc q2 h
    rw [processNeighbors] at h
    obtain rfl := Sum.inr.inj h
    exact ⟨[], by simp, by simp, by simp⟩
  | cons x ns2 ih =>
    intro acc q2 h
    rw [processNeighbors] at h
    by_cases h1 : x = goal
    · rw [if_pos h1] at h
      exact Sum.noConfusion h
    · rw [if_neg h1] at h
      by_cases h2 : x ∈ path ∨ x = dom
      · rw [if_pos h2] at h
        obtain ⟨ch, hq, hl, hch⟩ := ih h
        refine ⟨ch, hq, Nat.le_succ_of_le hl, fun e he => ?_⟩
        obtain ⟨y, h3, h4, h5, h6, h7⟩ := hch e he
        exact ⟨y, h3, List.mem_cons_of_mem _ h4, h5, h6, h7⟩
      · rw [if_neg h2] at h
        obtain ⟨ch, hq, hl, hch⟩ := ih h
        push_neg at h2
        refine ⟨(x, path ++ [x]) :: ch, ?_, ?_, ?_⟩
        · rw [hq, List.append_assoc]
          rfl
        · simpa using Nat.succ_le_succ hl
        · intro e he
          rcases List.mem_cons.mp he with rfl | he2
          · exact ⟨x, rfl, List.mem_cons_self _ _, h2.1, h2.2, h1⟩
          · obtain ⟨y, h3, h4, h5, h6, h7⟩ := hch e he2
            exact ⟨y, h3, List.mem_cons_of_mem _ h4, h5, h6, h7⟩

/-- Whatever invariant holds of every queue entry and is preserved by pushing
an unvisited non-Domokun neighbour also holds of the entry that produced a
non-empty answer; the answer is that entry's path extended by the goal. -/
lemma bfsAux_result (adj : Coord → List Coord) (dom goal : Coord)
    (P : Coord × List Coord → Prop)
    (hstep : ∀ pos path x, P (pos, path) → x ∈ adj pos → x ∉ path → x ≠ dom → x ≠ goal →
      P (x, path ++ [x])) :
    ∀ (fuel : Nat) (q : List (Coord × List Coord)) (r : List Coord),
      (∀ e ∈ q, P e) → bfsAux adj dom goal fuel q = some r → r ≠ [] →
      ∃ pos path, P (pos, path) ∧ goal ∈ adj pos ∧ r = path ++ [goal] := by
  intro fuel
  induction fuel with
  | zero =>
    intro q r _ h
    simp [bfsAux] at h
  | succ f ih =>
    intro q r hq h hr
    rw [bfsAux] at h
    cases hlast : q.getLast? with
    | none =>
      rw [hlast] at h
      simp at h
      exact absurd h hr
    | some e =>
      obtain ⟨pos, path⟩ := e
      rw [hlast] at h
      simp only at h
      have hmem : (pos, path) ∈ q := by
        have := List.dropLast_append_getLast? (l := q) (pos, path) (by rw [hlast]; rfl)
        rw [← this]
        simp
      cases hpn : processNeighbors dom goal path (adj pos) q.dropLast with
      | inl r2 =>
        rw [hpn] at h
        simp only at h
        obtain rfl : r2 = r := by simpa using h
        obtain ⟨hre, hg⟩ := processNeighbors_inl hpn
        exact ⟨pos, path, hq _ hmem, hg, hre⟩
      | inr q2 =>
        rw [hpn] at h
        simp only at h
        apply ih q2 r ?_ h hr
        obtain ⟨ch, hq2, _, hch⟩ := processNeighbors_inr hpn
        intro e he
        rw [hq2] at he
        rcases List.mem_append.mp he with he1 | he2
        · exact hq _ ((List.dropLast_sublist q).subset he1)
        · obtain ⟨x, rfl, hx1, hx2, hx3, hx4⟩ := hch e he2
          exact hstep pos path x (hq _ hmem) hx1 hx2 hx3 hx4

/-! ### Termination of the search: the fuel bound is sufficient -/

lemma le_foldr_max {l : List Nat} {x : Nat} (h : x ∈ l) : x ≤ l.foldr max 0 := by
  induction l with
  | nil => simp at h
  | cons a t ih =>
    rw [List.foldr_cons]
    rcases List.mem_cons.mp h with rfl | h2
    · exact le_max_left _ _
    · exact le_trans (ih h2) (le_max_right _ _)

lemma sum_map_const {α : Type} (f : α → Nat) (c : Nat) :
    ∀ (l : List α), (∀ x ∈ l, f x = c) → (l.map f).sum = l.length * c := by
  intro l
  induction l with
  | nil => intro _; simp
  | cons a t ih =>
    intro h
    rw [List.map_cons, List.sum_cons, List.length_cons,
      ih (fun x hx => h x (List.mem_cons_of_mem _ hx)), h a (List.mem_cons_self _ _)]
    ring

lemma nodup_toFinset_card {l : List Coord} (h : l.Nodup) : l.toFinset.card = l.length := by
  rw [List.card_toFinset, h.dedup]

/-- Fuel sufficiency: every queued path is a duplicate-free list over a fixed
finite vertex list `V`, every neighbour list has length at most `D`, and the
queue measure `Σ (D+1)^(card V − path length)` strictly drops each iteration,
so any fuel above the measure lets the loop finish. This is precisely why
Python's `bfs` terminates: a coordinate already on the path is never
re-enqueued. -/
lemma bfsAux_isSome (adj : Coord → List Coord) (dom goal : Coord) (V : List Coord) (D : Nat)
    (hVnd : V.Nodup)
    (hadjV : ∀ c, ∀ x ∈ adj c, x ∈ V)
    (hadjD : ∀ c, (adj c).length ≤ D) :
    ∀ (fuel : Nat) (q : List (Coord × List Coord)),
      (∀ e ∈ q, e.2.Nodup ∧ ∀ x ∈ e.2, x ∈ V) →
      (q.map fun e => (D + 1) ^ (V.length - e.2.length)).sum < fuel →
      (bfsAux adj dom goal fuel q).isSome := by
  intro fuel
  induction fuel with
  | zero =>
    intro q _ hm
    exact absurd hm (Nat.not_lt_zero _)
  | succ f ih =>
    intro q hinv hm
    rw [bfsAux]
    cases hlast : q.getLast? with
    | none => simp
    | some e =>
      obtain ⟨pos, path⟩ := e
      simp only
      cases hpn : processNeighbors dom goal path (adj pos) q.dropLast with
      | inl r => simp
      | inr q2 =>
        simp only
        have hqe : q.dropLast ++ [(pos, path)] = q :=
          List.dropLast_append_getLast? (pos, path) (by rw [hlast]; rfl)
        have hmem : (pos, path) ∈ q := by
          rw [← hqe]; simp
        obtain ⟨hnd, hsub⟩ := hinv _ hmem
        have hpc : path.toFinset.card = path.length := nodup_toFinset_card hnd
        have hvc : V.toFinset.card = V.length := nodup_toFinset_card hVnd
        have hss : path.toFinset ⊆ V.toFinset := by
          intro x hx
          rw [List.mem_toFinset] at hx ⊢
          exact hsub x hx
        have hL : path.length ≤ V.length := by
          rw [← hpc, ← hvc]
          exact Finset.card_le_card hss
        obtain ⟨ch, hq2, hchlen, hch⟩ := processNeighbors_inr hpn
        have hinv2 : ∀ e ∈ q2, e.2.Nodup ∧ ∀ x ∈ e.2, x ∈ V := by
          intro e he
          rw [hq2] at he
          rcases List.mem_append.mp he with he1 | he2
          · exact hinv _ ((List.dropLast_sublist q).subset he1)
          · obtain ⟨x, rfl, hx1, hx2, _, _⟩ := hch e he2
            constructor
            · refine List.Nodup.append hnd (List.nodup_singleton x) ?_
              intro a ha hb
              obtain rfl : a = x := by simpa using hb
              exact hx2 ha
            · intro y hy
              rcases List.mem_append.mp hy with hy1 | hy2
              · exact hsub y hy1
              · have hyx : y = x := by simpa using hy2
                rw [hyx]
                exact hadjV pos x hx1
        have hmq : (q.map fun e => (D + 1) ^ (V.length - e.2.length)).sum
            = (q.dropLast.map fun e => (D + 1) ^ (V.length - e.2.length)).sum
              + (D + 1) ^ (V.length - path.length) := by
          conv_lhs => rw [← hqe]
          rw [List.map_append, List.sum_append]
          simp
        have hchsum : (ch.map fun e => (D + 1) ^ (V.length - e.2.length)).sum
            = ch.length * (D + 1) ^ (V.length - (path.length + 1)) := by
          apply sum_map_const
          intro e he
          obtain ⟨x, rfl, _, _, _, _⟩ := hch e he
          simp
        have hmq2 : (q2.map fun e => (D + 1) ^ (V.length - e.2.length)).sum
            = (q.dropLast.map fun e => (D + 1) ^ (V.length - e.2.length)).sum
              + ch.length * (D + 1) ^ (V.length - (path.length + 1)) := by
          rw [hq2, List.map_append, List.sum_append, hchsum]
        have hkey : ch.length * (D + 1) ^ (V.length - (path.length + 1))
            < (D + 1) ^ (V.length - path.length) := by
          rcases Nat.lt_or_ge path.length V.length with hlt | hge
          · have hexp : V.length - path.length = (V.length - (path.length + 1)) + 1 := by omega
            have hchD : ch.length ≤ D := le_trans hchlen (hadjD pos)
            have hpow : (0 : Nat) < (D + 1) ^ (V.length - (path.length + 1)) :=
              pow_pos (Nat.succ_pos D) _
            calc ch.length * (D + 1) ^ (V.length - (path.length + 1))
                ≤ D * (D + 1) ^ (V.length - (path.length + 1)) :=
                  Nat.mul_le_mul_right _ hchD
              _ < (D + 1) * (D + 1) ^ (V.length - (path.length + 1)) :=
                  mul_lt_mul_of_pos_right (Nat.lt_succ_self D) hpow
              _ = (D + 1) ^ (V.length - path.length) := by
                  rw [hexp, pow_succ]
                  ring
          · have heq : path.length = V.length := le_antisymm hL hge
            have hche : ch = [] := by
              by_contra hne
              obtain ⟨e, he⟩ := List.exists_mem_of_ne_nil ch hne
              obtain ⟨x, rfl, hx1, hx2, _, _⟩ := hch e he
              have hfe : path.toFinset = V.toFinset :=
                Finset.eq_of_subset_of_card_le hss (by rw [hpc, hvc, heq])
              have hxV : x ∈ V.toFinset := List.mem_toFinset.mpr (hadjV pos x hx1)
              rw [← hfe] at hxV
              exact hx2 (List.mem_toFinset.mp hxV)
            rw [hche]
            simp only [List.length_nil, Nat.zero_mul]
            exact pow_pos (Nat.succ_pos D) _
        have hlt2 : (q2.map fun e => (D + 1) ^ (V.length - e.2.length)).sum
            < (q.map fun e => (D + 1) ^ (V.length - e.2.length)).sum := by
          rw [hmq, hmq2]
          exact Nat.add_lt_add_left hkey _
        exact ih q2 hinv2 (by omega)

lemma getAdj_sub_verts (m : Maze) : ∀ c, ∀ x ∈ getAdj m.maze c, x ∈ (vertsOf m).dedup := by
  intro c x hx
  rw [List.mem_dedup]
  obtain ⟨p, hp, hpc, hxp⟩ := mem_getAdj_exists hx
  unfold vertsOf
  apply List.mem_cons_of_mem
  rw [List.mem_flatten]
  refine ⟨p.1 :: p.2, ?_, List.mem_cons_of_mem _ hxp⟩
  rw [List.mem_map]
  exact ⟨p, hp, rfl⟩

lemma getAdj_len_le (m : Maze) : ∀ c, (getAdj m.maze c).length ≤ maxDeg m := by
  intro c
  unfold getAdj
  cases h : lookupD m.maze c with
  | none => simp
  | some v =>
    have h1 : (c, v) ∈ m.maze := lookupD_mem h
    have h2 : v.length ∈ m.maze.map (fun p => p.2.length) :=
      List.mem_map.mpr ⟨(c, v), h1, rfl⟩
    simpa [maxDeg] using le_foldr_max h2

lemma pony_mem_verts (m : Maze) : m.pony ∈ (vertsOf m).dedup := by
  rw [List.mem_dedup]
  exact List.mem_cons_self _ _

/-- The fuel `fuelBound` always suffices: the fuelled search never runs dry. -/
lemma bfsRun_isSome (m : Maze) : (bfsRun m).isSome := by
  unfold bfsRun
  apply bfsAux_isSome _ _ _ _ _ (List.nodup_dedup (vertsOf m)) (getAdj_sub_verts m)
    (getAdj_len_le m)
  · intro e he
    obtain rfl : e = (m.pony, [m.pony]) := by simpa using he
    refine ⟨List.nodup_singleton _, ?_⟩
    intro x hx
    obtain rfl : x = m.pony := by simpa using hx
    exact pony_mem_verts m
  · unfold fuelBound
    simp only [List.map_cons, List.map_nil, List.sum_cons, List.sum_nil, List.length_singleton]
    have hle : (maxDeg m + 1) ^ ((vertsOf m).dedup.length - 1)
        ≤ (maxDeg m + 1) ^ (vertsOf m).dedup.length :=
      Nat.pow_le_pow_right (Nat.succ_pos _) (Nat.sub_le _ _)
    omega

/-! ### The escape heuristic: `sorted(...)[-1]` is a maximising member -/

lemma sorted_getLast_key (k : Coord → Nat) :
    ∀ (l : List Coord), l.Sorted (fun a b => k a ≤ k b) →
      ∀ x ∈ l, ∀ mx, l.getLast? = some mx → k x ≤ k mx := by
  intro l
  induction l with
  | nil =>
    intro _ x hx
    simp at hx
  | cons a t ih =>
    intro hs x hx mx hmx
    rw [List.sorted_cons] at hs
    cases t with
    | nil =>
      obtain rfl : x = a := by simpa using hx
      obtain rfl : x = mx := by simpa using hmx
      exact le_refl _
    | cons b t2 =>
      rw [List.getLast?_cons_cons] at hmx
      have hmem : mx ∈ b :: t2 := List.mem_of_mem_getLast? hmx
      rcases List.mem_cons.mp hx with rfl | hx2
      · exact hs.1 mx hmem
      · exact ih hs.2 x hx2 mx hmx

lemma getLast_max_of_sorted_perm (k : Coord → Nat) (l s : List Coord)
    (hperm : List.Perm s l) (hsort : s.Sorted (fun a b => k a ≤ k b)) (h : l ≠ []) :
    ∃ r, s.getLast? = some r ∧ r ∈ l ∧ ∀ x ∈ l, k x ≤ k r := by
  cases hr : s.getLast? with
  | none =>
    have hnil := List.getLast?_eq_none_iff.mp hr
    rw [hnil] at hperm
    exact absurd (List.Perm.eq_nil hperm.symm) h
  | some r =>
    refine ⟨r, rfl, ?_, ?_⟩
    · exact hperm.subset (List.mem_of_mem_getLast? hr)
    · intro x hx
      exact sorted_getLast_key k s hsort x (hperm.mem_iff.mpr hx) r hr

lemma backup_spec (m : Maze) (h : getAdj m.maze m.pony ≠ []) :
    ∃ r, backup m = some r ∧ r ∈ getAdj m.maze m.pony ∧
      ∀ x ∈ getAdj m.maze m.pony, proxyKey m.domokun x ≤ proxyKey m.domokun r := by
  haveI : IsTotal Coord (fun a b => proxyKey m.domokun a ≤ proxyKey m.domokun b) :=
    ⟨fun a b => le_total _ _⟩
  haveI : IsTrans Coord (fun a b => proxyKey m.domokun a ≤ proxyKey m.domokun b) :=
    ⟨fun a b c hab hbc => le_trans hab hbc⟩
  exact getLast_max_of_sorted_perm (proxyKey m.domokun) _ _
    (List.perm_insertionSort _ _) (List.sorted_insertionSort _ _) h

/-! ### The defaultdict side effect of the searches -/

lemma dict_pres_trans {d1 d2 d3 : Dict}
    (h12 : ∀ c, lookupD d2 c = lookupD d1 c ∨ (lookupD d1 c = none ∧ lookupD d2 c = some []))
    (h23 : ∀ c, lookupD d3 c = lookupD d2 c ∨ (lookupD d2 c = none ∧ lookupD d3 c = some []))
    (c : Coord) :
    lookupD d3 c = lookupD d1 c ∨ (lookupD d1 c = none ∧ lookupD d3 c = some []) := by
  rcases h12 c with h1 | ⟨h1a, h1b⟩
  · rcases h23 c with h2 | ⟨h2a, h2b⟩
    · exact Or.inl (by rw [h2, h1])
    · exact Or.inr ⟨by rw [← h1, h2a], h2b⟩
  · rcases h23 c with h2 | ⟨h2a, h2b⟩
    · exact Or.inr ⟨h1a, by rw [h2, h1b]⟩
    · rw [h1b] at h2a
      exact absurd h2a (by simp)

lemma bfsStateAux_pres (dom goal : Coord) :
    ∀ (fuel : Nat) (q : List (Coord × List Coord)) (d : Dict) (c : Coord),
      lookupD (bfsStateAux dom goal fuel q d).2 c = lookupD d c ∨
        (lookupD d c = none ∧ lookupD (bfsStateAux dom goal fuel q d).2 c = some []) := by
  intro fuel
  induction fuel with
  | zero =>
    intro q d c
    exact Or.inl rfl
  | succ f ih =>
    intro q d c
    rw [bfsStateAux]
    cases hlast : q.getLast? with
    | none => exact Or.inl rfl
    | some e =>
      obtain ⟨pos, path⟩ := e
      simp only
      cases hpn : processNeighbors dom goal path (dictGet d pos).1 q.dropLast with
      | inl r =>
        simp only [hpn]
        exact lookupD_dictGet d pos c
      | inr q2 =>
        simp only [hpn]
        exact dict_pres_trans (fun c2 => lookupD_dictGet d pos c2)
          (fun c2 => ih q2 (dictGet d pos).2 c2) c

lemma backupState_pres (pony dom : Coord) (d : Dict) (c : Coord) :
    lookupD (backupState pony dom d).2 c = lookupD d c ∨
      (lookupD d c = none ∧ lookupD (backupState pony dom d).2 c = some []) :=
  lookupD_dictGet d pony c

/-- The threaded search computes the same answer as the pure one whenever the
dictionary realises the adjacency function — in particular the defaultdict
side effect never changes any neighbour set the search reads. -/
lemma bfsStateAux_fst (dom goal : Coord) :
    ∀ (fuel : Nat) (q : List (Coord × List Coord)) (d : Dict) (adjf : Coord → List Coord),
      (∀ c, getAdj d c = adjf c) →
      (bfsStateAux dom goal fuel q d).1 = bfsAux adjf dom goal fuel q := by
  intro fuel
  induction fuel with
  | zero =>
    intro q d adjf _
    rfl
  | succ f ih =>
    intro q d adjf h
    rw [bfsStateAux, bfsAux]
    cases hlast : q.getLast? with
    | none => rfl
    | some e =>
      obtain ⟨pos, path⟩ := e
      simp only
      have h1 : (dictGet d pos).1 = adjf pos := by
        rw [getAdj_dictGet_fst]
        exact h pos
      rw [h1]
      cases hpn : processNeighbors dom goal path (adjf pos) q.dropLast with
      | inl r => simp only [hpn]
      | inr q2 =>
        simp only [hpn]
        exact ih q2 (dictGet d pos).2 adjf (fun c => by rw [getAdj_dictGet_snd]; exact h c)

/-! ### Structure of a returned path -/

lemma bfs_structure (m : Maze) (r : List Coord) (hr : bfsRun m = some r) (hne : r ≠ []) :
    r.head? = some m.pony ∧ r.getLast? = some m.goal ∧ 2 ≤ r.length ∧
      List.Chain' (fun a b => b ∈ getAdj m.maze a) r := by
  have hres := bfsAux_result (getAdj m.maze) m.domokun m.goal
    (fun e => e.2.head? = some m.pony ∧ e.2.getLast? = some e.1 ∧
      List.Chain' (fun a b => b ∈ getAdj m.maze a) e.2)
    (by
      rintro pos path x ⟨hh, hl, hc⟩ hx _ _ _
      refine ⟨?_, List.getLast?_concat _, ?_⟩
      · cases path with
        | nil => simp at hh
        | cons a t => simpa using hh
      · rw [List.chain'_append]
        refine ⟨hc, List.chain'_singleton _, ?_⟩
        intro u hu v hv
        obtain rfl : x = v := by simpa using hv
        rw [hl] at hu
        obtain rfl : pos = u := by simpa using hu
        exact hx)
    (fuelBound m) [(m.pony, [m.pony])] r
    (by
      intro e he
      obtain rfl : e = (m.pony, [m.pony]) := by simpa using he
      exact ⟨rfl, rfl, List.chain'_singleton _⟩)
    hr hne
  obtain ⟨pos, path, ⟨hh, hl, hc⟩, hg, rfl⟩ := hres
  have hpne : path ≠ [] := by
    intro h2
    rw [h2] at hh
    simp at hh
  refine ⟨?_, List.getLast?_concat _, ?_, ?_⟩
  · cases path with
    | nil => simp at hh
    | cons a t => simpa using hh
  · cases path with
    | nil => exact absurd rfl hpne
    | cons a t => simp
  · rw [List.chain'_append]
    refine ⟨hc, List.chain'_singleton _, ?_⟩
    intro u hu v hv
    obtain rfl : m.goal = v := by simpa using hv
    rw [hl] at hu
    obtain rfl : pos = u := by simpa using hu
    exact hg

lemma bfs_second (m : Maze) (r : List Coord) (hr : bfsRun m = some r) (hne : r ≠ []) :
    ∃ t rest, r = m.pony :: t :: rest ∧ t ∈ getAdj m.maze m.pony := by
  obtain ⟨hh, _, hlen, hc⟩ := bfs_structure m r hr hne
  cases r with
  | nil => exact absurd rfl hne
  | cons a t =>
    cases t with
    | nil => simp at hlen
    | cons b rest =>
      obtain rfl : a = m.pony := by simpa using hh
      exact ⟨b, rest, rfl, (List.chain'_cons.mp hc).1⟩

/-! ### Concrete mazes used by the claims -/

/-- 3×3 grid whose walls leave a 2-edge corridor (0,0)–(0,1)–(0,2) and a
4-edge corridor (0,0)–(1,0)–(1,1)–(1,2)–(0,2); the bottom row is sealed. -/
def gridC1 : List (List String) :=
  [["north", "west"], ["north"], ["north"], ["west"], ["north"], [],
   ["north", "west"], ["north", "west"], ["north", "west"]]

def mazeC1 : Maze :=
  { width := 3, maze := buildMaze 3 gridC1, pony := (0, 0), domokun := (2, 2), goal := (0, 2) }

/-- 2×1 grid: a single corridor (0,0)–(0,1). -/
def gridTwo : List (List String) := [["north", "west"], ["north"]]

def mazeC2 : Maze :=
  { width := 2, maze := buildMaze 2 gridTwo, pony := (0, 0), domokun := (0, 1), goal := (0, 1) }

def mazeC2w : Maze :=
  { width := 2, maze := buildMaze 2 gridTwo, pony := (0, 0), domokun := (5, 5), goal := (0, 1) }

def mazeC5 : Maze :=
  { width := 1, maze := [], pony := (0, 0), domokun := (1, 1), goal := (2, 2) }

def mazeC6 : Maze :=
  { width := 5, maze := [((0, 0), [(0, 1), (2, 0)])], pony := (0, 0), domokun := (0, 0),
    goal := (9, 9) }

def mazeC7 : Maze :=
  { width := 2, maze := buildMaze 2 gridTwo, pony := (0, 0), domokun := (7, 7), goal := (0, 1) }

def mazeC8 : Maze :=
  { width := 1, maze := [], pony := (0, 0), domokun := (1, 1), goal := (2, 2) }

def mazeC8w : Maze :=
  { width := 3, maze := [((1, 1), [(1, 2)])], pony := (0, 0), domokun := (1, 1), goal := (1, 2) }

/-! ### The claims -/

set_option maxRecDepth 4000

/-- C1: the claim says the path returned by the Pathfinder always has the
true shortest-path length (the source documents the function as "Basic BFS
implementation"), but `queue.pop()` removes the LAST queue element, making
the search depth-first. In `mazeC1` (agent (0,0), goal (0,2), hostile at the
sealed cell (2,2), neighbour sets iterated in insertion order) the goal is
reachable in 2 edges avoiding the hostile cell, yet the code returns the
4-edge detour — the third conjunct exhibits the valid 2-edge path, the last
conjunct the length gap. -/
theorem claim_C1_code_bug :
    bfs mazeC1 = [(0, 0), (1, 0), (1, 1), (1, 2), (0, 2)] ∧
    isPathB mazeC1 [(0, 0), (0, 1), (0, 2)] = true ∧
    isPathB mazeC1 (bfs mazeC1) = true ∧
    ([(0, 0), (0, 1), (0, 2)] : List Coord).length < (bfs mazeC1).length := by
  decide

/-- C2 counterexample: when the hostile entity stands on the goal cell the
claim fails — the goal test in `bfs` precedes the Domokun test, so the
returned path ends on Domokun's cell. -/
theorem claim_C2_counterexample :
    bfs mazeC2 = [(0, 0), (0, 1)] ∧ mazeC2.domokun = (0, 1) ∧ mazeC2.domokun ∈ bfs mazeC2 := by
  decide

/-- C2 amended: provided the agent does not already share Domokun's cell,
every element of the returned path except the final one differs from
Domokun's position, and a non-empty path always ends at the goal; hence the
hostile cell can occur in the path only as a final element equal to the
goal. -/
theorem claim_C2_amended (m : Maze) (h : m.pony ≠ m.domokun) :
    (∀ x ∈ (bfs m).dropLast, x ≠ m.domokun) ∧
      (bfs m ≠ [] → (bfs m).getLast? = some m.goal) := by
  cases hb : bfsRun m with
  | none =>
    have hbe : bfs m = [] := by unfold bfs; rw [hb]; rfl
    rw [hbe]
    exact ⟨by simp, fun h2 => absurd rfl h2⟩
  | some r =>
    have hbe : bfs m = r := by unfold bfs; rw [hb]; rfl
    rw [hbe]
    by_cases hre : r = []
    · rw [hre]
      exact ⟨by simp, fun h2 => absurd rfl h2⟩
    · have hres := bfsAux_result (getAdj m.maze) m.domokun m.goal
        (fun e => m.domokun ∉ e.2)
        (by
          intro pos path x hP hx1 hx2 hx3 hx4
          intro hmem
          rcases List.mem_append.mp hmem with hm1 | hm2
          · exact hP hm1
          · obtain rfl : m.domokun = x := by simpa using hm2
            exact hx3 rfl)
        (fuelBound m) [(m.pony, [m.pony])] r
        (by
          intro e he
          obtain rfl : e = (m.pony, [m.pony]) := by simpa using he
          intro hmem
          obtain h2 : m.domokun = m.pony := by simpa using hmem
          exact h h2.symm)
        hb hre
      obtain ⟨pos, path, hP, hg, rfl⟩ := hres
      constructor
      · intro x hx
        rw [List.dropLast_concat] at hx
        intro h2
        rw [h2] at hx
        exact hP hx
      · intro _
        exact List.getLast?_concat _

/-- C2 witness: a maze where the amended statement is visibly non-vacuous. -/
theorem claim_C2_witness :
    mazeC2w.pony ≠ mazeC2w.domokun ∧
      ((∀ x ∈ (bfs mazeC2w).dropLast, x ≠ mazeC2w.domokun) ∧
        (bfs mazeC2w ≠ [] → (bfs mazeC2w).getLast? = some mazeC2w.goal)) :=
  ⟨by decide, claim_C2_amended mazeC2w (by decide)⟩

/-- C3 counterexample: a descriptor sequence of length 3 on a 2×1 grid is
decoded without any error into a non-trivial adjacency dictionary — the
run-on index 2 decodes to the out-of-grid cell (1,0) with its own edges. -/
theorem claim_C3_counterexample :
    ([([] : List String), [], []].length ≠ 2 * 1) ∧
      lookupD (buildMaze 2 [[], [], []]) (1, 0) = some [(1, -1), (0, 0)] := by
  decide

/-- C3 amended: maze construction performs no length validation at all —
appending one more descriptor past any prefix (in particular past
width×height of them) just decodes one more cell into the graph; decoding is
total and never raises. -/
theorem claim_C3_amended (w : Nat) (grid : List (List String)) (dd : List String) :
    buildMaze w (grid ++ [dd]) = decodeCell w (buildMaze w grid) grid.length dd := by
  unfold buildMaze
  rw [decodeFrom_append, Nat.zero_add]

/-- C4 counterexample: a 1×1 grid whose single descriptor omits the west
wall gets the out-of-bounds neighbour (0,−1) (column −1 < 0) — nothing is
rejected or ignored. -/
theorem claim_C4_counterexample :
    ((0 : Int), (-1 : Int)) ∈ getAdj (buildMaze 1 [[]]) ((0 : Int), (0 : Int)) ∧
      ((-1 : Int) < 0) := by
  decide

/-- C4 amended: whenever any descriptor omits "west", the decoder
unconditionally records the western neighbour (row, column−1) — including the
out-of-bounds coordinate with column −1 when the cell is on the west
boundary; no bounds check exists. (The "north"/row−1 case is symmetric.) -/
theorem claim_C4_amended (w : Nat) (grid : List (List String)) (i : Nat) (walls : List String)
    (h1 : grid[i]? = some walls) (h2 : "west" ∉ walls) :
    (((i / w : Nat) : Int), ((i % w : Nat) : Int) - 1) ∈
      getAdj (buildMaze w grid) (((i / w : Nat) : Int), ((i % w : Nat) : Int)) := by
  have h3 := @decodeFrom_get_west w grid 0 [] i walls h1 h2
  simpa using h3

/-- C4 witness: the amended statement instantiated at the 1×1 boundary
cell. -/
theorem claim_C4_witness :
    (([([] : List String)])[0]? = some []) ∧ ("west" ∉ ([] : List String)) ∧
      ((((0 / 1 : Nat) : Nat) : Int), (((0 % 1 : Nat) : Nat) : Int) - 1) ∈
        getAdj (buildMaze 1 [[]]) ((((0 / 1 : Nat) : Nat) : Int), (((0 % 1 : Nat) : Nat) : Int)) :=
  ⟨by decide, by decide, claim_C4_amended 1 [[]] 0 [] (by decide) (by decide)⟩

/-- C5 counterexample: querying the pony's cell is enough to mutate the
adjacency mapping — on a maze whose dictionary is empty, running `bfs`
leaves behind the key (0,0) (the `defaultdict` side effect of
`__getitem__`), so the mapping is NOT identical before and after. -/
theorem claim_C5_counterexample :
    (bfsStateRun mazeC5).2 = [((0, 0), [])] ∧ mazeC5.maze = [] ∧
      (bfsStateRun mazeC5).2 ≠ mazeC5.maze := by
  decide

/-- C5 amended: the searches never change any recorded neighbour set — after
`bfs` or `backup`, every key's lookup either is exactly what it was before,
or the key was previously absent and is now recorded with the empty
neighbour set (the only mutation the defaultdict read can cause). -/
theorem claim_C5_amended :
    (∀ (dom goal : Coord) (fuel : Nat) (q : List (Coord × List Coord)) (d : Dict) (c : Coord),
      lookupD (bfsStateAux dom goal fuel q d).2 c = lookupD d c ∨
        (lookupD d c = none ∧ lookupD (bfsStateAux dom goal fuel q d).2 c = some [])) ∧
    (∀ (pony dom : Coord) (d : Dict) (c : Coord),
      lookupD (backupState pony dom d).2 c = lookupD d c ∨
        (lookupD d c = none ∧ lookupD (backupState pony dom d).2 c = some [])) :=
  ⟨fun dom goal fuel q d c => bfsStateAux_pres dom goal fuel q d c,
   fun pony dom d c => backupState_pres pony dom d c⟩

/-- C6: whenever the agent has at least one neighbour, `backup` returns one
of those neighbours, and it maximises the source's Manhattan-distance proxy
(which compares both components against Domokun's column); the element
`sorted(...)[-1]` is by construction the last of the maximisers under the
comparator. -/
theorem claim_C6 (m : Maze) (h : getAdj m.maze m.pony ≠ []) :
    ∃ r, backup m = some r ∧ r ∈ getAdj m.maze m.pony ∧
      ∀ x ∈ getAdj m.maze m.pony, proxyKey m.domokun x ≤ proxyKey m.domokun r :=
  backup_spec m h

/-- C6 witness: a maze with two neighbours of distinct proxy score. -/
theorem claim_C6_witness :
    (getAdj mazeC6.maze mazeC6.pony ≠ []) ∧
      ∃ r, backup mazeC6 = some r ∧ r ∈ getAdj mazeC6.maze mazeC6.pony ∧
        ∀ x ∈ getAdj mazeC6.maze mazeC6.pony,
          proxyKey mazeC6.domokun x ≤ proxyKey mazeC6.domokun r :=
  ⟨by decide, claim_C6 mazeC6 (by decide)⟩

/-- C7: on any maze whose recorded edges are all unit steps and whose agent
has at least one neighbour, `get_move` succeeds: the target cell is the
path's second element when the Pathfinder found a path and otherwise the
escape heuristic's choice, and the returned direction's delta applied to the
agent's position lands exactly on that target cell (the delta table being
(0,−1)→west, (1,0)→south, (0,1)→east, (−1,0)→north). -/
theorem claim_C7 (m : Maze) (h1 : unitEdges m) (h2 : getAdj m.maze m.pony ≠ []) :
    ∃ dir t, get_move m = some dir ∧ targetCell m = some t ∧
      (m.pony.1 + (dirDelta dir).1, m.pony.2 + (dirDelta dir).2) = t := by
  have hmem : ∃ t, targetCell m = some t ∧ t ∈ getAdj m.maze m.pony := by
    unfold targetCell
    by_cases hb : bfs m = []
    · rw [if_pos hb]
      obtain ⟨r, hr1, hr2, _⟩ := backup_spec m h2
      exact ⟨r, hr1, hr2⟩
    · rw [if_neg hb]
      have hsome : bfsRun m = some (bfs m) := by
        cases hrr : bfsRun m with
        | none =>
          have hx : bfs m = [] := by unfold bfs; rw [hrr]; rfl
          exact absurd hx hb
        | some r =>
          have hx : bfs m = r := by unfold bfs; rw [hrr]; rfl
          rw [hx]
      obtain ⟨t, rest, hre, htmem⟩ := bfs_second m (bfs m) hsome hb
      refine ⟨t, ?_, htmem⟩
      rw [hre]
      simp
  obtain ⟨t, ht1, ht2⟩ := hmem
  obtain ⟨t1, t2⟩ := t
  obtain ⟨p, hp, hpc, htp⟩ := mem_getAdj_exists ht2
  have hdelta := h1 p hp (t1, t2) htp
  rw [hpc] at hdelta
  simp only [List.mem_cons, List.not_mem_nil, or_false] at hdelta
  have hgm : get_move m = move_map (t1 - m.pony.1, t2 - m.pony.2) := by
    unfold get_move
    rw [ht1]
  rcases hdelta with h4 | h4 | h4 | h4
  · have h5 : t1 - m.pony.1 = 0 := by rw [Prod.mk.injEq] at h4; exact h4.1
    have h6 : t2 - m.pony.2 = -1 := by rw [Prod.mk.injEq] at h4; exact h4.2
    refine ⟨.west, (t1, t2), ?_, ht1, ?_⟩
    · rw [hgm, h4]
      rfl
    · dsimp [dirDelta]
      rw [Prod.mk.injEq]
      constructor <;> omega
  · have h5 : t1 - m.pony.1 = 1 := by rw [Prod.mk.injEq] at h4; exact h4.1
    have h6 : t2 - m.pony.2 = 0 := by rw [Prod.mk.injEq] at h4; exact h4.2
    refine ⟨.south, (t1, t2), ?_, ht1, ?_⟩
    · rw [hgm, h4]
      rfl
    · dsimp [dirDelta]
      rw [Prod.mk.injEq]
      constructor <;> omega
  · have h5 : t1 - m.pony.1 = 0 := by rw [Prod.mk.injEq] at h4; exact h4.1
    have h6 : t2 - m.pony.2 = 1 := by rw [Prod.mk.injEq] at h4; exact h4.2
    refine ⟨.east, (t1, t2), ?_, ht1, ?_⟩
    · rw [hgm, h4]
      rfl
    · dsimp [dirDelta]
      rw [Prod.mk.injEq]
      constructor <;> omega
  · have h5 : t1 - m.pony.1 = -1 := by rw [Prod.mk.injEq] at h4; exact h4.1
    have h6 : t2 - m.pony.2 = 0 := by rw [Prod.mk.injEq] at h4; exact h4.2
    refine ⟨.north, (t1, t2), ?_, ht1, ?_⟩
    · rw [hgm, h4]
      rfl
    · dsimp [dirDelta]
      rw [Prod.mk.injEq]
      constructor <;> omega

/-- C7 witness: the 2-cell corridor with Domokun far away; the planner walks
east onto the goal. -/
theorem claim_C7_witness :
    unitEdges mazeC7 ∧ getAdj mazeC7.maze mazeC7.pony ≠ [] ∧
      ∃ dir t, get_move mazeC7 = some dir ∧ targetCell mazeC7 = some t ∧
        (mazeC7.pony.1 + (dirDelta dir).1, mazeC7.pony.2 + (dirDelta dir).2) = t :=
  ⟨by decide, by decide, claim_C7 mazeC7 (by decide) (by decide)⟩

/-- C8 counterexample: with zero recorded neighbours the escape heuristic is
NOT guarded — `sorted(moves)[-1]` on the empty set raises `IndexError`,
i.e. the embedded `backup` yields `none` rather than any coordinate. -/
theorem claim_C8_counterexample :
    getAdj mazeC8.maze mazeC8.pony = [] ∧ backup mazeC8 = none := by
  decide

/-- C8 amended: on every maze state in which the agent's neighbour set is
empty, `backup` fails (returns `none`, the embedding of the `IndexError`
raised by `[-1]`); no guard exists in the code. -/
theorem claim_C8_amended (m : Maze) (h : getAdj m.maze m.pony = []) : backup m = none := by
  unfold backup
  rw [h]
  rfl

/-- C8 witness: a maze with edges elsewhere but none at the agent. -/
theorem claim_C8_witness :
    getAdj mazeC8w.maze mazeC8w.pony = [] ∧ backup mazeC8w = none :=
  ⟨by decide, claim_C8_amended mazeC8w (by decide)⟩

/-- C9: the decoded maze graph is symmetric — in fact for EVERY descriptor
sequence (well-formed or not), since the decoder always inserts both
directions of an edge; the well-formed case of the claim is the special
case. -/
theorem claim_C9 (width : Nat) (grid : List (List String)) (a b : Coord) :
    a ∈ getAdj (buildMaze width grid) b ↔ b ∈ getAdj (buildMaze width grid) a := by
  have hsym : SymD (buildMaze width grid) := by
    unfold buildMaze
    apply symD_decodeFrom
    intro x y
    simp [getAdj_nil]
  exact hsym a b

/-- C10: the Pathfinder terminates on every maze state: the fuelled search
completes within `fuelBound` steps (never exhausts its fuel), because every
enqueued path is duplicate-free over the finite vertex set, and `bfs` is the
returned path or the empty sequence. -/
theorem claim_C10 (m : Maze) : ∃ r, bfsRun m = some r ∧ bfs m = r := by
  have h := bfsRun_isSome m
  cases hr : bfsRun m with
  | none =>
    rw [hr] at h
    simp at h
  | some r =>
    refine ⟨r, rfl, ?_⟩
    unfold bfs
    rw [hr]
    rfl
